import Mathlib

/-!
Verification of the image quantization and raster-encoding pipeline of the
radar display service: the fixed six-color palette quantizer
(`find_closest_color`), the Floyd-Steinberg dithering engine
(`apply_floyd_steinberg`), and the raster transcoder (`pixmap_to_epd_bin`)
that rotates, splits and packs a raster into the two-strip 4-bit-per-pixel
panel buffer.  All definitions are shallow embeddings of the corresponding
Rust functions in `src/main.rs`; the 32-bit float arithmetic of the working
buffer is embedded as exact rational arithmetic, and machine integers as
natural numbers.
-/

namespace Radar

/-- An 8-bit RGB triple as stored in pixmap pixels, modelling the `[u8; 3]`
values of the source.  Channel values are naturals in 0..255. -/
structure Rgb8 where
  r : ℕ
  g : ℕ
  b : ℕ
deriving DecidableEq

/-- An RGB triple of the dithering working buffer.  The source stores these as
`[f32; 3]`; the embedding uses exact rationals for the error arithmetic. -/
structure Rgbq where
  r : ℚ
  g : ℚ
  b : ℚ
deriving DecidableEq

/-- Conversion of an 8-bit color into the working-buffer representation,
mirroring the `as f32` casts in the source. -/
def Rgb8.toQ (c : Rgb8) : Rgbq := ⟨(c.r : ℚ), (c.g : ℚ), (c.b : ℚ)⟩

/-- The fixed six-entry palette of the source, in declaration order:
Black, White, Yellow, Red, Blue, Green. -/
def PALETTE : List Rgb8 :=
  [⟨0, 0, 0⟩, ⟨255, 255, 255⟩, ⟨255, 255, 0⟩, ⟨255, 0, 0⟩, ⟨0, 0, 255⟩, ⟨0, 255, 0⟩]

/-- The largest finite value of a 32-bit float (`f32::MAX`), the initial
minimum distance of the nearest-color search. -/
def f32MAX : ℚ := 2 ^ 128 - 2 ^ 104

/-- Squared Euclidean distance in RGB space between a working-buffer color and
a palette color, as computed inside `find_closest_color`. -/
def distSq (rgb : Rgbq) (color : Rgb8) : ℚ :=
  (rgb.r - (color.r : ℚ)) ^ 2 + (rgb.g - (color.g : ℚ)) ^ 2 + (rgb.b - (color.b : ℚ)) ^ 2

/-- One iteration of the nearest-color search loop: the current best is
replaced exactly when the candidate is strictly closer. -/
def fccStep (rgb : Rgbq) (s : ℚ × Rgb8) (color : Rgb8) : ℚ × Rgb8 :=
  if distSq rgb color < s.1 then (distSq rgb color, color) else s

/-- Nearest palette color (`find_closest_color` in the source): fold of the
search loop over the palette, starting from distance `f32::MAX` and the first
palette entry. -/
def find_closest_color (rgb : Rgbq) : Rgb8 :=
  (PALETTE.foldl (fccStep rgb) (f32MAX, ⟨0, 0, 0⟩)).2

/-- Clamp of one channel to an interval, as `f32::clamp`. -/
def qclamp (x lo hi : ℚ) : ℚ := min (max x lo) hi

/-- Channelwise clamp to the valid RGB range 0..255. -/
def clamp3 (c : Rgbq) : Rgbq := ⟨qclamp c.r 0 255, qclamp c.g 0 255, qclamp c.b 0 255⟩

/-- The zero working-buffer color, used as the default of reads; the scan only
reads in-range cells, where the default is irrelevant. -/
def qzero : Rgbq := ⟨0, 0, 0⟩

/-- Channelwise `pixel + err * factor`, the update of `distribute_error`. -/
def addScaled (p err : Rgbq) (factor : ℚ) : Rgbq :=
  ⟨p.r + err.r * factor, p.g + err.g * factor, p.b + err.b * factor⟩

/-- Error diffusion into one working-buffer cell (`distribute_error` in the
source): add `err * factor` channelwise. -/
def distribute_error (d : List Rgbq) (i : ℕ) (err : Rgbq) (factor : ℚ) : List Rgbq :=
  d.set i (addScaled (d.getD i qzero) err factor)

/-- The clamped "old" color the scan computes at a cell. -/
def fsOldAt (d : List Rgbq) (idx : ℕ) : Rgbq := clamp3 (d.getD idx qzero)

/-- The quantized "new" color the scan computes at a cell. -/
def fsNewAt (d : List Rgbq) (idx : ℕ) : Rgb8 := find_closest_color (fsOldAt d idx)

/-- The per-channel quantization error at a cell: clamped old minus new. -/
def fsErrAt (d : List Rgbq) (idx : ℕ) : Rgbq :=
  ⟨(fsOldAt d idx).r - ((fsNewAt d idx).r : ℚ),
   (fsOldAt d idx).g - ((fsNewAt d idx).g : ℚ),
   (fsOldAt d idx).b - ((fsNewAt d idx).b : ℚ)⟩

/-- The body of the dithering scan at pixel (x, y): clamp, quantize, write the
quantized color back into the working buffer, and diffuse the error with the
Floyd-Steinberg weights 7/16, 3/16, 5/16, 1/16, guarded by the same bounds
checks as the source. -/
def fsPixel (w h : ℕ) (d : List Rgbq) (x y : ℕ) : List Rgbq :=
  let idx := y * w + x
  let nu := fsNewAt d idx
  let err := fsErrAt d idx
  let d1 := d.set idx nu.toQ
  let d2 := if x + 1 < w then distribute_error d1 (y * w + x + 1) err (7 / 16) else d1
  if y + 1 < h then
    let d3 := if 0 < x then distribute_error d2 ((y + 1) * w + x - 1) err (3 / 16) else d2
    let d4 := distribute_error d3 ((y + 1) * w + x) err (5 / 16)
    if x + 1 < w then distribute_error d4 ((y + 1) * w + x + 1) err (1 / 16) else d4
  else d2

/-- Partial row of the scan: pixels x = 0..n-1 of row y. -/
def fsRowN (w h y n : ℕ) (d : List Rgbq) : List Rgbq :=
  (List.range n).foldl (fun d x => fsPixel w h d x y) d

/-- One full row of the scan. -/
def fsRow (w h y : ℕ) (d : List Rgbq) : List Rgbq := fsRowN w h y w d

/-- Partial scan: rows y = 0..n-1. -/
def fsScanN (w h n : ℕ) (d : List Rgbq) : List Rgbq :=
  (List.range n).foldl (fun d y => fsRow w h y d) d

/-- The full dithering scan over all rows, in row-major order. -/
def fsScan (w h : ℕ) (d : List Rgbq) : List Rgbq := fsScanN w h h d

/-- Conversion of a working-buffer channel back to 8 bits: clamp to 0..255
then truncate, mirroring `clamp(0.0, 255.0) as u8`. -/
def toU8 (x : ℚ) : ℕ := (qclamp x 0 255).floor.toNat

/-- Conversion of a working-buffer color back to an 8-bit pixel. -/
def Rgbq.toRgb8 (c : Rgbq) : Rgb8 := ⟨toU8 c.r, toU8 c.g, toU8 c.b⟩

/-- A pixmap: width, height and a row-major pixel list. -/
structure Pixmap where
  width : ℕ
  height : ℕ
  pixels : List Rgb8
deriving DecidableEq

/-- Floyd-Steinberg dithering of a pixmap (`apply_floyd_steinberg` in the
source): load the pixels into the working buffer, run the scan, and convert
back to 8-bit pixels of the same dimensions. -/
def apply_floyd_steinberg (p : Pixmap) : Pixmap :=
  let data := p.pixels.map Rgb8.toQ
  ⟨p.width, p.height, (fsScan p.width p.height data).map Rgbq.toRgb8⟩

/-- The color-to-code table of the panel (`get_epd_color` in the source):
Black 0, White 1, Yellow 2, Red 3, Blue 5, Green 6, anything else White 1. -/
def get_epd_color (rgb : Rgb8) : ℕ :=
  if rgb = ⟨0, 0, 0⟩ then 0
  else if rgb = ⟨255, 255, 255⟩ then 1
  else if rgb = ⟨255, 255, 0⟩ then 2
  else if rgb = ⟨255, 0, 0⟩ then 3
  else if rgb = ⟨0, 0, 255⟩ then 5
  else if rgb = ⟨0, 255, 0⟩ then 6
  else 1

/-- The panel width constant of the source. -/
def TARGET_W : ℕ := 1200

/-- The panel height constant of the source. -/
def TARGET_H : ℕ := 1600

/-- The strip width constant of the source. -/
def HALF_W : ℕ := TARGET_W / 2

/-- Length of the packed panel buffer, `TARGET_W * TARGET_H / 2`. -/
def EPD_LEN : ℕ := TARGET_W * TARGET_H / 2

/-- The in-strip pixel index of a destination pixel: local x plus
`y_new * HALF_W`, with local x the destination x reduced modulo the strip
split. -/
def pixelIdx (x_new y_new : ℕ) : ℕ :=
  (if x_new < HALF_W then x_new else x_new - HALF_W) + y_new * HALF_W

/-- The byte position a destination pixel maps to: the strip offset (0 or half
the buffer length) plus half the in-strip pixel index. -/
def bytePos (x_new y_new : ℕ) : ℕ :=
  (if x_new < HALF_W then 0 else EPD_LEN / 2) + pixelIdx x_new y_new / 2

/-- Write of one 4-bit code into the packed buffer for destination
(x_new, y_new): strip split at `HALF_W`, two pixels per byte, high nibble at
even pixel index, OR-ed into the byte. -/
def epdWriteNibble (buffer : List ℕ) (x_new y_new code : ℕ) : List ℕ :=
  if pixelIdx x_new y_new &&& 1 = 0 then
    buffer.set (bytePos x_new y_new) (buffer.getD (bytePos x_new y_new) 0 ||| code <<< 4)
  else
    buffer.set (bytePos x_new y_new) (buffer.getD (bytePos x_new y_new) 0 ||| code)

/-- One iteration of the packing loop for destination (x_new, y_new): rotate
the coordinates, check the source bounds, and write the code of the source
pixel. -/
def epdStep (srcW srcH : ℕ) (pixels : List Rgb8) (buffer : List ℕ) (y_new x_new : ℕ) :
    List ℕ :=
  if y_new < srcW ∧ srcH - 1 - x_new < srcH then
    epdWriteNibble buffer x_new y_new
      (get_epd_color (pixels.getD ((srcH - 1 - x_new) * srcW + y_new) ⟨0, 0, 0⟩))
  else buffer

/-- The full packing loop over all destinations, y then x. -/
def epdLoop (srcW srcH : ℕ) (pixels : List Rgb8) (buffer : List ℕ) : List ℕ :=
  (List.range TARGET_H).foldl (fun buf y_new =>
    (List.range TARGET_W).foldl
      (fun buf2 x_new => epdStep srcW srcH pixels buf2 y_new x_new) buf)
    buffer

/-- Packing of a pixmap into the two-strip 4bpp panel buffer
(`pixmap_to_epd_bin` in the source). -/
def pixmap_to_epd_bin (p : Pixmap) : List ℕ :=
  epdLoop p.width p.height p.pixels (List.replicate EPD_LEN 0)

/-! ### General list helpers -/

lemma set_getD_self {α : Type} (l : List α) (i : ℕ) (d : α) :
    l.set i (l.getD i d) = l := by
  induction l generalizing i with
  | nil => rfl
  | cons a l ih =>
    cases i with
    | zero => simp [List.getD]
    | succ j => simp only [List.set, List.getD_cons_succ]; rw [ih]

lemma foldl_length_const {α β : Type} (g : List α → β → List α)
    (hg : ∀ buf b, (g buf b).length = buf.length) :
    ∀ (l : List β) (buf : List α), (l.foldl g buf).length = buf.length := by
  intro l
  induction l with
  | nil => intro buf; rfl
  | cons b l ih => intro buf; rw [List.foldl_cons, ih, hg]

/-! ### The quantizer -/

lemma fccStep_cases (q : Rgbq) (s : ℚ × Rgb8) (c : Rgb8) :
    fccStep q s c = (distSq q c, c) ∨ fccStep q s c = s := by
  unfold fccStep
  split
  · exact Or.inl rfl
  · exact Or.inr rfl

lemma fcc_fold_mem (q : Rgbq) :
    ∀ (l : List Rgb8) (s : ℚ × Rgb8),
      (l.foldl (fccStep q) s).2 = s.2 ∨ (l.foldl (fccStep q) s).2 ∈ l := by
  intro l
  induction l with
  | nil => intro s; exact Or.inl rfl
  | cons c l ih =>
    intro s
    rw [List.foldl_cons]
    rcases fccStep_cases q s c with hc | hc <;> rw [hc]
    · rcases ih (distSq q c, c) with h | h
      · exact Or.inr (by rw [h]; exact List.mem_cons_self c l)
      · exact Or.inr (List.mem_cons_of_mem c h)
    · rcases ih s with h | h
      · exact Or.inl h
      · exact Or.inr (List.mem_cons_of_mem c h)

/-- The nearest-color search always lands in the palette. -/
lemma fcc_mem (q : Rgbq) : find_closest_color q ∈ PALETTE := by
  unfold find_closest_color
  rcases fcc_fold_mem q PALETTE (f32MAX, ⟨0, 0, 0⟩) with h | h
  · rw [h]; decide
  · exact h

/-- Palette colors are fixed points of the nearest-color search. -/
lemma fcc_fixed : ∀ c ∈ PALETTE, find_closest_color (Rgb8.toQ c) = c := by
  intro c hc
  fin_cases hc <;>
    norm_num [find_closest_color, PALETTE, fccStep, distSq, f32MAX, Rgb8.toQ]

lemma fold_argAux_eq (q : Rgbq) :
    ∀ (l : List Rgb8) (c : Rgb8),
      l.foldl (List.argAux fun b c2 => distSq q b < distSq q c2) (some c)
        = some (l.foldl (fccStep q) (distSq q c, c)).2 := by
  intro l
  induction l with
  | nil => intro c; rfl
  | cons e l ih =>
    intro c
    simp only [List.foldl_cons]
    by_cases h : distSq q e < distSq q c
    · have h1 : List.argAux (fun b c2 => distSq q b < distSq q c2) (some c) e = some e := by
        simp [List.argAux, h]
      have h2 : fccStep q (distSq q c, c) e = (distSq q e, e) := by
        simp [fccStep, h]
      rw [h1, h2, ih e]
    · have h1 : List.argAux (fun b c2 => distSq q b < distSq q c2) (some c) e = some c := by
        simp [List.argAux, h]
      have h2 : fccStep q (distSq q c, c) e = (distSq q c, c) := by
        simp [fccStep, h]
      rw [h1, h2, ih c]

/-- C6: for every RGB triple the nearest-color lookup returns one of the six
palette colors, and on an exact palette color it returns that same color. -/
theorem quantizer_total_and_fixed :
    (∀ q : Rgbq, find_closest_color q ∈ PALETTE) ∧
      ∀ c ∈ PALETTE, find_closest_color (Rgb8.toQ c) = c :=
  ⟨fcc_mem, fcc_fixed⟩

/-- Witness for C6 at the near-black input and at the Green palette entry. -/
theorem quantizer_total_and_fixed_witness :
    find_closest_color ⟨10, 10, 10⟩ ∈ PALETTE ∧
      find_closest_color (Rgb8.toQ ⟨0, 255, 0⟩) = ⟨0, 255, 0⟩ :=
  ⟨quantizer_total_and_fixed.1 ⟨10, 10, 10⟩,
   quantizer_total_and_fixed.2 ⟨0, 255, 0⟩ (by decide)⟩

/-- C7: the nearest-color lookup computes squared Euclidean distances against
the palette and returns the first palette entry of minimal distance, ties
falling to the earlier entry (Black, White, Yellow, Red, Blue, Green order);
`List.argmin` returns exactly the first minimum of the list. -/
theorem quantizer_first_min (q : Rgbq) (h : distSq q ⟨0, 0, 0⟩ < f32MAX) :
    List.argmin (distSq q) PALETTE = some (find_closest_color q) := by
  have hstep : fccStep q (f32MAX, ⟨0, 0, 0⟩) ⟨0, 0, 0⟩
      = (distSq q ⟨0, 0, 0⟩, ⟨0, 0, 0⟩) := by
    simp [fccStep, h]
  have e1 : List.argmin (distSq q) PALETTE
      = List.foldl (List.argAux fun b c2 => distSq q b < distSq q c2) (some ⟨0, 0, 0⟩)
          [⟨255, 255, 255⟩, ⟨255, 255, 0⟩, ⟨255, 0, 0⟩, ⟨0, 0, 255⟩, ⟨0, 255, 0⟩] := rfl
  have e2 : find_closest_color q
      = (List.foldl (fccStep q) (fccStep q (f32MAX, ⟨0, 0, 0⟩) ⟨0, 0, 0⟩)
          [⟨255, 255, 255⟩, ⟨255, 255, 0⟩, ⟨255, 0, 0⟩, ⟨0, 0, 255⟩, ⟨0, 255, 0⟩]).2 := rfl
  rw [e1, e2, hstep]
  exact fold_argAux_eq q _ ⟨0, 0, 0⟩

/-- Witness for C7 at the exact Black-White tie point (127.5, 127.5, 127.5). -/
theorem quantizer_first_min_witness :
    List.argmin (distSq ⟨255 / 2, 255 / 2, 255 / 2⟩) PALETTE
      = some (find_closest_color ⟨255 / 2, 255 / 2, 255 / 2⟩) :=
  quantizer_first_min ⟨255 / 2, 255 / 2, 255 / 2⟩ (by norm_num [distSq, f32MAX])

/-! ### The color-to-code table -/

/-- C9: the color-to-code mapping sends Black to 0, White to 1, Yellow to 2,
Red to 3, Blue to 5, Green to 6, never produces code 4, and sends every
non-palette color to the White code 1. -/
theorem epd_color_codes :
    get_epd_color ⟨0, 0, 0⟩ = 0 ∧ get_epd_color ⟨255, 255, 255⟩ = 1 ∧
      get_epd_color ⟨255, 255, 0⟩ = 2 ∧ get_epd_color ⟨255, 0, 0⟩ = 3 ∧
      get_epd_color ⟨0, 0, 255⟩ = 5 ∧ get_epd_color ⟨0, 255, 0⟩ = 6 ∧
      (∀ rgb : Rgb8, get_epd_color rgb ≠ 4) ∧
      ∀ rgb : Rgb8, rgb ∉ PALETTE → get_epd_color rgb = 1 := by
  refine ⟨by decide, by decide, by decide, by decide, by decide, by decide, ?_, ?_⟩
  · intro rgb
    unfold get_epd_color
    split_ifs <;> simp
  · intro rgb hmem
    unfold get_epd_color
    split_ifs <;> simp_all [PALETTE]

/-- Witness for C9 at the non-palette color (7, 7, 7). -/
theorem epd_color_codes_witness : get_epd_color ⟨7, 7, 7⟩ = 1 :=
  epd_color_codes.2.2.2.2.2.2.2 ⟨7, 7, 7⟩ (by decide)

/-! ### Panel buffer length -/

lemma epdWriteNibble_length (buffer : List ℕ) (x y c : ℕ) :
    (epdWriteNibble buffer x y c).length = buffer.length := by
  unfold epdWriteNibble
  split <;> exact List.length_set buffer _ _

lemma epdStep_length (srcW srcH : ℕ) (pixels : List Rgb8) (buffer : List ℕ) (y x : ℕ) :
    (epdStep srcW srcH pixels buffer y x).length = buffer.length := by
  unfold epdStep
  split
  · rw [epdWriteNibble_length]
  · rfl

lemma pixmap_to_epd_bin_length (p : Pixmap) : (pixmap_to_epd_bin p).length = 960000 := by
  unfold pixmap_to_epd_bin epdLoop
  rw [foldl_length_const]
  · rw [List.length_replicate]
    rfl
  · intro buf y
    rw [foldl_length_const]
    intro buf2 x
    exact epdStep_length _ _ _ _ _ _

/-- C1 counterexample: on a concrete 1-by-1 raster the packed buffer does not
have 900,000 bytes. -/
theorem pack_size_not_900000 :
    (pixmap_to_epd_bin ⟨1, 1, [⟨0, 0, 0⟩]⟩).length ≠ 900000 := by
  rw [pixmap_to_epd_bin_length]
  decide

/-- C1 amended: for every input raster the pack operation returns a byte
buffer of exactly 960,000 bytes (TARGET_W * TARGET_H / 2 for the 1200-by-1600
panel at 4 bits per pixel). -/
theorem pack_size_960000 (p : Pixmap) : (pixmap_to_epd_bin p).length = 960000 :=
  pixmap_to_epd_bin_length p

/-! ### Nibble arithmetic -/

/-- An OR-write of a code into the high nibble leaves the low nibble alone. -/
lemma lor_shiftLeft_mod16 (b c : ℕ) : (b ||| c <<< 4) % 16 = b % 16 := by
  have h16 : (16 : ℕ) = 2 ^ 4 := rfl
  apply Nat.eq_of_testBit_eq
  intro i
  rw [h16, Nat.testBit_mod_two_pow, Nat.testBit_mod_two_pow, Nat.testBit_lor]
  by_cases h : i < 4
  · simp [h, Nat.testBit_shiftLeft]
  · simp [h]

/-- An OR-write of a code below 16 into the low nibble leaves the high nibble
alone. -/
lemma lor_low_div16 (b c : ℕ) (hc : c < 16) : (b ||| c) / 16 = b / 16 := by
  have h16 : (16 : ℕ) = 2 ^ 4 := rfl
  rw [h16, ← Nat.shiftRight_eq_div_pow, ← Nat.shiftRight_eq_div_pow]
  apply Nat.eq_of_testBit_eq
  intro i
  rw [Nat.testBit_shiftRight, Nat.testBit_shiftRight, Nat.testBit_lor]
  have hbit : c.testBit (4 + i) = false := by
    apply Nat.testBit_lt_two_pow
    calc c < 16 := hc
    _ ≤ 2 ^ (4 + i) := by
      rw [h16]
      exact Nat.pow_le_pow_right (by norm_num) (by omega)
  simp [hbit]

/-- Every code of the color table fits in a nibble. -/
lemma get_epd_color_lt (rgb : Rgb8) : get_epd_color rgb < 16 := by
  unfold get_epd_color
  split_ifs <;> decide

/-! ### Packed-buffer reads and writes -/

lemma getD_set_ne {α : Type} (l : List α) (i j : ℕ) (hij : i ≠ j) (v d : α) :
    (l.set i v).getD j d = l.getD j d := by
  rw [List.getD_eq_getElem?_getD, List.getD_eq_getElem?_getD, List.getElem?_set_ne hij]

lemma getD_set_self {α : Type} (l : List α) (i : ℕ) (hi : i < l.length) (v d : α) :
    (l.set i v).getD i d = v := by
  rw [List.getD_eq_getElem?_getD, List.getElem?_set_self hi]
  rfl

lemma getD_replicate_zero : ∀ (n i : ℕ), (List.replicate n (0 : ℕ)).getD i 0 = 0 := by
  intro n
  induction n with
  | zero => intro i; rfl
  | succ m ih =>
    intro i
    cases i with
    | zero => rfl
    | succ j => exact ih j

/-- The byte position of every in-panel destination is inside the buffer. -/
lemma bytePos_lt (x y : ℕ) (hx : x < TARGET_W) (hy : y < TARGET_H) :
    bytePos x y < EPD_LEN := by
  simp only [bytePos, pixelIdx, TARGET_W, TARGET_H, HALF_W, EPD_LEN] at *
  split_ifs <;> omega

/-- Two in-panel destinations sharing a byte position share their row. -/
lemma bytePos_inj_y (x y x2 y2 : ℕ) (hx : x < TARGET_W) (hy : y < TARGET_H)
    (hx2 : x2 < TARGET_W) (hy2 : y2 < TARGET_H) (hb : bytePos x2 y2 = bytePos x y) :
    y2 = y := by
  simp only [bytePos, pixelIdx, TARGET_W, TARGET_H, HALF_W, EPD_LEN] at *
  split_ifs at hb <;> omega

lemma epdStep_getD_untouched (srcW srcH : ℕ) (pixels : List Rgb8) (buffer : List ℕ)
    (y x B : ℕ)
    (h : ¬(y < srcW ∧ srcH - 1 - x < srcH) ∨ bytePos x y ≠ B) :
    (epdStep srcW srcH pixels buffer y x).getD B 0 = buffer.getD B 0 := by
  unfold epdStep
  split
  · rcases h with h | h
    · exact absurd (by assumption) h
    · unfold epdWriteNibble
      split <;> exact getD_set_ne _ _ _ h _ _
  · rfl

lemma foldl_getD_const_mem {β : Type} (B : ℕ) :
    ∀ (l : List β) (g : List ℕ → β → List ℕ),
      (∀ buf b, b ∈ l → (g buf b).getD B 0 = buf.getD B 0) →
      ∀ buf, (l.foldl g buf).getD B 0 = buf.getD B 0 := by
  intro l
  induction l with
  | nil => intro g _ buf; rfl
  | cons b l ih =>
    intro g hg buf
    rw [List.foldl_cons, ih g (fun buf2 e he => hg buf2 e (List.mem_cons_of_mem b he)),
      hg buf b (List.mem_cons_self b l)]

/-- A destination outside the addressable range of the source raster leaves
its byte of the packed buffer at zero. -/
lemma epd_oob_byte_zero (p : Pixmap) (x y : ℕ) (hx : x < TARGET_W) (hy : y < TARGET_H)
    (hoob : ¬(y < p.width ∧ p.height - 1 - x < p.height)) :
    (pixmap_to_epd_bin p).getD (bytePos x y) 0 = 0 := by
  unfold pixmap_to_epd_bin epdLoop
  rw [foldl_getD_const_mem (bytePos x y), getD_replicate_zero]
  intro buf y2 hy2
  have hy2lt : y2 < TARGET_H := by
    have := List.mem_range.mp hy2
    simpa [TARGET_H] using this
  rw [foldl_getD_const_mem (bytePos x y)]
  intro buf2 x2 hx2
  have hx2lt : x2 < TARGET_W := by
    have := List.mem_range.mp hx2
    simpa [TARGET_W] using this
  apply epdStep_getD_untouched
  by_cases hbp : bytePos x2 y2 = bytePos x y
  · left
    have hyy : y2 = y := bytePos_inj_y x y x2 y2 hx hy hx2lt hy2lt hbp
    subst hyy
    intro hin
    exact hoob ⟨hin.1, by omega⟩
  · right
    exact hbp

/-- C4: the transcoder reads source coordinates x_old = y_new and
y_old = (src_height - 1) - x_new (natural subtraction, saturating at 0), reads
that source pixel exactly when those coordinates are inside the source raster,
and otherwise leaves the destination unwritten so that its byte of the packed
buffer stays 0. -/
theorem transcoder_coords :
    (∀ (srcW srcH : ℕ) (pixels : List Rgb8) (buffer : List ℕ) (y_new x_new : ℕ),
       y_new < srcW ∧ srcH - 1 - x_new < srcH →
       epdStep srcW srcH pixels buffer y_new x_new
         = epdWriteNibble buffer x_new y_new
             (get_epd_color (pixels.getD ((srcH - 1 - x_new) * srcW + y_new) ⟨0, 0, 0⟩))) ∧
    (∀ (srcW srcH : ℕ) (pixels : List Rgb8) (buffer : List ℕ) (y_new x_new : ℕ),
       ¬(y_new < srcW ∧ srcH - 1 - x_new < srcH) →
       epdStep srcW srcH pixels buffer y_new x_new = buffer) ∧
    ∀ (p : Pixmap) (x_new y_new : ℕ), x_new < TARGET_W → y_new < TARGET_H →
      ¬(y_new < p.width ∧ p.height - 1 - x_new < p.height) →
      (pixmap_to_epd_bin p).getD (bytePos x_new y_new) 0 = 0 := by
  refine ⟨?_, ?_, ?_⟩
  · intro srcW srcH pixels buffer y_new x_new h
    unfold epdStep
    rw [if_pos h]
  · intro srcW srcH pixels buffer y_new x_new h
    unfold epdStep
    rw [if_neg h]
  · exact epd_oob_byte_zero

/-- Witness for C4 on a 1-by-1 source: destination (0, 0) is in bounds and
written from pixel (0, 0); destination (0, 1) is out of bounds, its step is a
no-op and its byte of the packed buffer is 0. -/
theorem transcoder_coords_witness :
    (epdStep 1 1 [⟨255, 255, 0⟩] (List.replicate EPD_LEN 0) 0 0
       = epdWriteNibble (List.replicate EPD_LEN 0) 0 0
           (get_epd_color ([(⟨255, 255, 0⟩ : Rgb8)].getD 0 ⟨0, 0, 0⟩))) ∧
    (epdStep 1 1 [⟨255, 255, 0⟩] (List.replicate EPD_LEN 0) 1 0
       = List.replicate EPD_LEN 0) ∧
    (pixmap_to_epd_bin ⟨1, 1, [⟨255, 255, 0⟩]⟩).getD (bytePos 0 1) 0 = 0 :=
  ⟨transcoder_coords.1 1 1 [⟨255, 255, 0⟩] (List.replicate EPD_LEN 0) 0 0 (by decide),
   transcoder_coords.2.1 1 1 [⟨255, 255, 0⟩] (List.replicate EPD_LEN 0) 1 0 (by decide),
   transcoder_coords.2.2 ⟨1, 1, [⟨255, 255, 0⟩]⟩ 0 1 (by decide) (by decide) (by decide)⟩

/-- C5: a destination with x_new below 600 goes to strip 0 at offset 0 with
local x = x_new, one with x_new at least 600 to strip 1 at offset half the
buffer length with local x = x_new - 600; the in-strip pixel index is
local_x + y_new * 600, the byte index is pixel_index / 2, an even pixel index
writes the code into the high nibble (code shifted left by 4) and an odd one
into the low nibble; the write ORs into the byte, so it preserves the other
nibble. -/
theorem transcoder_packing (buffer : List ℕ) (x_new y_new code : ℕ)
    (hx : x_new < TARGET_W) (hy : y_new < TARGET_H)
    (hlen : buffer.length = EPD_LEN) (hcode : code < 16) :
    (x_new < HALF_W →
       pixelIdx x_new y_new = x_new + y_new * HALF_W ∧
         bytePos x_new y_new = (x_new + y_new * HALF_W) / 2) ∧
    (HALF_W ≤ x_new →
       pixelIdx x_new y_new = (x_new - HALF_W) + y_new * HALF_W ∧
         bytePos x_new y_new = EPD_LEN / 2 + ((x_new - HALF_W) + y_new * HALF_W) / 2) ∧
    (pixelIdx x_new y_new % 2 = 0 →
       epdWriteNibble buffer x_new y_new code
           = buffer.set (bytePos x_new y_new)
               (buffer.getD (bytePos x_new y_new) 0 ||| code <<< 4) ∧
         (epdWriteNibble buffer x_new y_new code).getD (bytePos x_new y_new) 0 % 16
           = buffer.getD (bytePos x_new y_new) 0 % 16) ∧
    (pixelIdx x_new y_new % 2 = 1 →
       epdWriteNibble buffer x_new y_new code
           = buffer.set (bytePos x_new y_new)
               (buffer.getD (bytePos x_new y_new) 0 ||| code) ∧
         (epdWriteNibble buffer x_new y_new code).getD (bytePos x_new y_new) 0 / 16
           = buffer.getD (bytePos x_new y_new) 0 / 16) := by
  have hblt : bytePos x_new y_new < buffer.length := by
    rw [hlen]
    exact bytePos_lt x_new y_new hx hy
  refine ⟨?_, ?_, ?_, ?_⟩
  · intro hlt
    constructor
    · unfold pixelIdx
      rw [if_pos hlt]
    · unfold bytePos pixelIdx
      rw [if_pos hlt, if_pos hlt, Nat.zero_add]
  · intro hge
    constructor
    · unfold pixelIdx
      rw [if_neg (by omega)]
    · unfold bytePos pixelIdx
      rw [if_neg (by omega), if_neg (by omega)]
  · intro heven
    have hcond : pixelIdx x_new y_new &&& 1 = 0 := by
      rw [Nat.and_one_is_mod, heven]
    constructor
    · unfold epdWriteNibble
      rw [if_pos hcond]
    · unfold epdWriteNibble
      rw [if_pos hcond, getD_set_self _ _ hblt, lor_shiftLeft_mod16]
  · intro hodd
    have hcond : ¬(pixelIdx x_new y_new &&& 1 = 0) := by
      rw [Nat.and_one_is_mod, hodd]
      decide
    constructor
    · unfold epdWriteNibble
      rw [if_neg hcond]
    · unfold epdWriteNibble
      rw [if_neg hcond, getD_set_self _ _ hblt, lor_low_div16 _ _ hcode]

/-- Witness for C5 at the strip-0 destination (599, 0) and the strip-1
destination (600, 0), with code 1, on the all-zero buffer. -/
theorem transcoder_packing_witness :
    (pixelIdx 599 0 = 599 + 0 * HALF_W ∧ bytePos 599 0 = (599 + 0 * HALF_W) / 2) ∧
    (pixelIdx 600 0 = (600 - HALF_W) + 0 * HALF_W ∧
      bytePos 600 0 = EPD_LEN / 2 + ((600 - HALF_W) + 0 * HALF_W) / 2) ∧
    (epdWriteNibble (List.replicate EPD_LEN 0) 600 0 1
        = (List.replicate EPD_LEN 0).set (bytePos 600 0)
            ((List.replicate EPD_LEN 0).getD (bytePos 600 0) 0 ||| 1 <<< 4) ∧
      (epdWriteNibble (List.replicate EPD_LEN 0) 600 0 1).getD (bytePos 600 0) 0 % 16
        = (List.replicate EPD_LEN 0).getD (bytePos 600 0) 0 % 16) ∧
    (epdWriteNibble (List.replicate EPD_LEN 0) 599 0 1
        = (List.replicate EPD_LEN 0).set (bytePos 599 0)
            ((List.replicate EPD_LEN 0).getD (bytePos 599 0) 0 ||| 1) ∧
      (epdWriteNibble (List.replicate EPD_LEN 0) 599 0 1).getD (bytePos 599 0) 0 / 16
        = (List.replicate EPD_LEN 0).getD (bytePos 599 0) 0 / 16) :=
  ⟨(transcoder_packing (List.replicate EPD_LEN 0) 599 0 1 (by decide) (by decide)
      (by rw [List.length_replicate]) (by decide)).1 (by decide),
   (transcoder_packing (List.replicate EPD_LEN 0) 600 0 1 (by decide) (by decide)
      (by rw [List.length_replicate]) (by decide)).2.1 (by decide),
   (transcoder_packing (List.replicate EPD_LEN 0) 600 0 1 (by decide) (by decide)
      (by rw [List.length_replicate]) (by decide)).2.2.1 (by decide),
   (transcoder_packing (List.replicate EPD_LEN 0) 599 0 1 (by decide) (by decide)
      (by rw [List.length_replicate]) (by decide)).2.2.2 (by decide)⟩

/-! ### The dithering scan: single-step characterization -/

lemma de_len (d : List Rgbq) (i : ℕ) (e : Rgbq) (f : ℚ) :
    (distribute_error d i e f).length = d.length :=
  List.length_set d i _

lemma de_getD_ne (d : List Rgbq) (i j : ℕ) (e : Rgbq) (f : ℚ) (hij : i ≠ j) :
    (distribute_error d i e f).getD j qzero = d.getD j qzero :=
  getD_set_ne d i j hij _ _

lemma de_getD_self (d : List Rgbq) (i : ℕ) (e : Rgbq) (f : ℚ) (hi : i < d.length) :
    (distribute_error d i e f).getD i qzero = addScaled (d.getD i qzero) e f :=
  getD_set_self d i hi _ _

lemma fsPixel_length (w h : ℕ) (d : List Rgbq) (x y : ℕ) :
    (fsPixel w h d x y).length = d.length := by
  simp only [fsPixel]
  split_ifs <;> simp [de_len, List.length_set]

/-- Row-major index bound: a pixel inside the raster indexes inside the
buffer. -/
lemma idx_lt {x w y h : ℕ} (hx : x < w) (hy : y < h) : y * w + x < w * h :=
  calc y * w + x < y * w + w := by omega
  _ = (y + 1) * w := by ring
  _ ≤ h * w := Nat.mul_le_mul_right w hy
  _ = w * h := Nat.mul_comm h w

lemma getD_set_q (l : List Rgbq) (i j : ℕ) (v : Rgbq) :
    (l.set i v).getD j qzero = if j = i ∧ i < l.length then v else l.getD j qzero := by
  split_ifs with hc
  · rw [hc.1, List.getD_eq_getElem?_getD, List.getElem?_set_self hc.2]
    rfl
  · rcases Decidable.em (j = i) with he | he
    · subst he
      have hge : l.length ≤ j := by
        rcases Nat.lt_or_ge j l.length with h | h
        · exact absurd ⟨rfl, h⟩ hc
        · exact h
      rw [List.getD_eq_getElem?_getD, List.getD_eq_getElem?_getD,
        List.getElem?_eq_none (by rw [List.length_set]; exact hge), List.getElem?_eq_none hge]
    · rw [List.getD_eq_getElem?_getD, List.getD_eq_getElem?_getD,
        List.getElem?_set_ne (by omega)]

lemma de_getD (d : List Rgbq) (i j : ℕ) (e : Rgbq) (f : ℚ) :
    (distribute_error d i e f).getD j qzero
      = if j = i ∧ i < d.length then addScaled (d.getD i qzero) e f else d.getD j qzero := by
  unfold distribute_error
  exact getD_set_q d i j _

/-- The scan step writes the quantized color of the clamped old value back at
the current pixel. -/
lemma fsPixel_getD_idx (w h : ℕ) (d : List Rgbq) (x y : ℕ) (hx : x < w) (hy : y < h)
    (hlen : d.length = w * h) :
    (fsPixel w h d x y).getD (y * w + x) qzero = (fsNewAt d (y * w + x)).toQ := by
  have hidx : y * w + x < d.length := by rw [hlen]; exact idx_lt hx hy
  simp only [fsPixel]
  split_ifs <;>
    · simp only [de_getD, getD_set_q, de_len, List.length_set, add_mul, one_mul,
        true_and, and_true]
      split_ifs <;> first | rfl | (exfalso; omega)

/-- The scan step adds 7/16 of the error to the right neighbor. -/
lemma fsPixel_getD_t1 (w h : ℕ) (d : List Rgbq) (x y : ℕ) (hx : x < w) (hy : y < h)
    (hlen : d.length = w * h) (hA : x + 1 < w) :
    (fsPixel w h d x y).getD (y * w + x + 1) qzero
      = addScaled (d.getD (y * w + x + 1) qzero) (fsErrAt d (y * w + x)) (7 / 16) := by
  have hidx : y * w + x < d.length := by rw [hlen]; exact idx_lt hx hy
  have ht1 : y * w + x + 1 < d.length := by
    rw [hlen]
    have := idx_lt hA hy
    omega
  simp only [fsPixel]
  split_ifs <;>
    first
      | (exfalso; omega)
      | (simp only [de_getD, getD_set_q, de_len, List.length_set, add_mul, one_mul,
           true_and, and_true]
         split_ifs <;> first | rfl | (exfalso; omega))

/-- The scan step adds 3/16 of the error to the lower-left neighbor. -/
lemma fsPixel_getD_t2 (w h : ℕ) (d : List Rgbq) (x y : ℕ) (hx : x < w) (hy : y < h)
    (hlen : d.length = w * h) (hB : y + 1 < h) (hC : 0 < x) :
    (fsPixel w h d x y).getD ((y + 1) * w + x - 1) qzero
      = addScaled (d.getD ((y + 1) * w + x - 1) qzero) (fsErrAt d (y * w + x)) (3 / 16) := by
  have hidx : y * w + x < d.length := by rw [hlen]; exact idx_lt hx hy
  have ht2 : (y + 1) * w + x - 1 < d.length := by
    rw [hlen]
    have := idx_lt (show x - 1 < w by omega) hB
    simp only [add_mul, one_mul] at this ⊢
    omega
  simp only [add_mul, one_mul] at ht2 ⊢
  simp only [fsPixel]
  split_ifs <;>
    first
      | (exfalso; omega)
      | (simp only [de_getD, getD_set_q, de_len, List.length_set, add_mul, one_mul,
           true_and, and_true]
         split_ifs <;> first | rfl | (exfalso; omega))

/-- The scan step adds 5/16 of the error to the neighbor below. -/
lemma fsPixel_getD_t3 (w h : ℕ) (d : List Rgbq) (x y : ℕ) (hx : x < w) (hy : y < h)
    (hlen : d.length = w * h) (hB : y + 1 < h) :
    (fsPixel w h d x y).getD ((y + 1) * w + x) qzero
      = addScaled (d.getD ((y + 1) * w + x) qzero) (fsErrAt d (y * w + x)) (5 / 16) := by
  have hidx : y * w + x < d.length := by rw [hlen]; exact idx_lt hx hy
  have ht3 : (y + 1) * w + x < d.length := by
    rw [hlen]
    exact idx_lt hx hB
  simp only [add_mul, one_mul] at ht3 ⊢
  simp only [fsPixel]
  split_ifs <;>
    first
      | (exfalso; omega)
      | (simp only [de_getD, getD_set_q, de_len, List.length_set, add_mul, one_mul,
           true_and, and_true]
         split_ifs <;> first | rfl | (exfalso; omega))

/-- The scan step adds 1/16 of the error to the lower-right neighbor. -/
lemma fsPixel_getD_t4 (w h : ℕ) (d : List Rgbq) (x y : ℕ) (hx : x < w) (hy : y < h)
    (hlen : d.length = w * h) (hB : y + 1 < h) (hA : x + 1 < w) :
    (fsPixel w h d x y).getD ((y + 1) * w + x + 1) qzero
      = addScaled (d.getD ((y + 1) * w + x + 1) qzero) (fsErrAt d (y * w + x)) (1 / 16) := by
  have hidx : y * w + x < d.length := by rw [hlen]; exact idx_lt hx hy
  have ht4 : (y + 1) * w + x + 1 < d.length := by
    rw [hlen]
    have := idx_lt hA hB
    simp only [add_mul, one_mul] at this ⊢
    omega
  simp only [add_mul, one_mul] at ht4 ⊢
  simp only [fsPixel]
  split_ifs <;>
    first
      | (exfalso; omega)
      | (simp only [de_getD, getD_set_q, de_len, List.length_set, add_mul, one_mul,
           true_and, and_true]
         split_ifs <;> first | rfl | (exfalso; omega))

/-- The scan step touches no cell other than the current pixel and its four
forward neighbors. -/
lemma fsPixel_getD_other (w h : ℕ) (d : List Rgbq) (x y j : ℕ)
    (h1 : j ≠ y * w + x) (h2 : j ≠ y * w + x + 1) (h3 : j ≠ (y + 1) * w + x - 1)
    (h4 : j ≠ (y + 1) * w + x) (h5 : j ≠ (y + 1) * w + x + 1) :
    (fsPixel w h d x y).getD j qzero = d.getD j qzero := by
  simp only [add_mul, one_mul] at h3 h4 h5 ⊢
  simp only [fsPixel]
  split_ifs <;>
    · simp only [de_getD, getD_set_q, de_len, List.length_set, add_mul, one_mul,
        true_and, and_true]
      split_ifs <;> first | rfl | (exfalso; omega)

/-- Cells strictly before the current pixel are never touched by the step. -/
lemma fsPixel_getD_lt (w h : ℕ) (d : List Rgbq) (x y j : ℕ) (hx : x < w)
    (hj : j < y * w + x) :
    (fsPixel w h d x y).getD j qzero = d.getD j qzero := by
  apply fsPixel_getD_other <;>
    first
      | omega
      | (simp only [add_mul, one_mul]; omega)

/-- C3: at pixel (x, y) the scan quantizes the clamped accumulated value,
computes the error as clamped old minus new, writes the quantized color back
at the pixel, diffuses the error with weights 7/16 to (x+1, y), 3/16 to
(x-1, y+1), 5/16 to (x, y+1) and 1/16 to (x+1, y+1) within bounds, and
touches no other cell of the working buffer. -/
theorem dither_step (w h : ℕ) (d : List Rgbq) (x y : ℕ) (hx : x < w) (hy : y < h)
    (hlen : d.length = w * h) :
    fsNewAt d (y * w + x) = find_closest_color (clamp3 (d.getD (y * w + x) qzero)) ∧
    fsErrAt d (y * w + x)
      = ⟨(clamp3 (d.getD (y * w + x) qzero)).r - ((fsNewAt d (y * w + x)).r : ℚ),
         (clamp3 (d.getD (y * w + x) qzero)).g - ((fsNewAt d (y * w + x)).g : ℚ),
         (clamp3 (d.getD (y * w + x) qzero)).b - ((fsNewAt d (y * w + x)).b : ℚ)⟩ ∧
    (fsPixel w h d x y).getD (y * w + x) qzero = (fsNewAt d (y * w + x)).toQ ∧
    (x + 1 < w →
      (fsPixel w h d x y).getD (y * w + x + 1) qzero
        = addScaled (d.getD (y * w + x + 1) qzero) (fsErrAt d (y * w + x)) (7 / 16)) ∧
    (y + 1 < h → 0 < x →
      (fsPixel w h d x y).getD ((y + 1) * w + x - 1) qzero
        = addScaled (d.getD ((y + 1) * w + x - 1) qzero) (fsErrAt d (y * w + x)) (3 / 16)) ∧
    (y + 1 < h →
      (fsPixel w h d x y).getD ((y + 1) * w + x) qzero
        = addScaled (d.getD ((y + 1) * w + x) qzero) (fsErrAt d (y * w + x)) (5 / 16)) ∧
    (y + 1 < h → x + 1 < w →
      (fsPixel w h d x y).getD ((y + 1) * w + x + 1) qzero
        = addScaled (d.getD ((y + 1) * w + x + 1) qzero) (fsErrAt d (y * w + x)) (1 / 16)) ∧
    ∀ j : ℕ, j ≠ y * w + x → j ≠ y * w + x + 1 → j ≠ (y + 1) * w + x - 1 →
      j ≠ (y + 1) * w + x → j ≠ (y + 1) * w + x + 1 →
      (fsPixel w h d x y).getD j qzero = d.getD j qzero :=
  ⟨rfl, rfl,
   fsPixel_getD_idx w h d x y hx hy hlen,
   fun hA => fsPixel_getD_t1 w h d x y hx hy hlen hA,
   fun hB hC => fsPixel_getD_t2 w h d x y hx hy hlen hB hC,
   fun hB => fsPixel_getD_t3 w h d x y hx hy hlen hB,
   fun hB hA => fsPixel_getD_t4 w h d x y hx hy hlen hB hA,
   fun j h1 h2 h3 h4 h5 => fsPixel_getD_other w h d x y j h1 h2 h3 h4 h5⟩

/-- Witness for C3 on a concrete 2-by-2 buffer at pixel (0, 0). -/
theorem dither_step_witness :
    (fsPixel 2 2 [⟨10, 10, 10⟩, qzero, qzero, qzero] 0 0).getD 0 qzero
      = (fsNewAt [⟨10, 10, 10⟩, qzero, qzero, qzero] 0).toQ :=
  (dither_step 2 2 [⟨10, 10, 10⟩, qzero, qzero, qzero] 0 0 (by decide) (by decide)
    rfl).2.2.1

/-! ### The dithering scan: palette range invariant -/

/-- All cells before index k hold exact palette colors. -/
def QuantTo (d : List Rgbq) (k : ℕ) : Prop :=
  ∀ i < k, ∃ c ∈ PALETTE, d.getD i qzero = Rgb8.toQ c

lemma fsPixel_quant (w h : ℕ) (d : List Rgbq) (x y : ℕ) (hx : x < w) (hy : y < h)
    (hlen : d.length = w * h) (hq : QuantTo d (y * w + x)) :
    QuantTo (fsPixel w h d x y) (y * w + x + 1) := by
  intro i hi
  rcases Nat.lt_or_ge i (y * w + x) with hlt | hge
  · rcases hq i hlt with ⟨c, hc, he⟩
    exact ⟨c, hc, by rw [fsPixel_getD_lt w h d x y i hx hlt, he]⟩
  · have hie : i = y * w + x := by omega
    subst hie
    exact ⟨fsNewAt d (y * w + x), fcc_mem _, fsPixel_getD_idx w h d x y hx hy hlen⟩

lemma fsRowN_length (w h y n : ℕ) (d : List Rgbq) :
    (fsRowN w h y n d).length = d.length := by
  unfold fsRowN
  exact foldl_length_const _ (fun buf x => fsPixel_length w h buf x y) _ d

lemma fsScanN_length (w h n : ℕ) (d : List Rgbq) :
    (fsScanN w h n d).length = d.length := by
  unfold fsScanN
  exact foldl_length_const _ (fun buf y => fsRowN_length w h y w buf) _ d

lemma fsRowN_succ (w h y n : ℕ) (d : List Rgbq) :
    fsRowN w h y (n + 1) d = fsPixel w h (fsRowN w h y n d) n y := by
  unfold fsRowN
  rw [List.range_succ, List.foldl_append]
  rfl

lemma fsScanN_succ (w h n : ℕ) (d : List Rgbq) :
    fsScanN w h (n + 1) d = fsRow w h n (fsScanN w h n d) := by
  unfold fsScanN
  rw [List.range_succ, List.foldl_append]
  rfl

lemma fsRowN_quant (w h y : ℕ) (d : List Rgbq) (hy : y < h) (hlen : d.length = w * h) :
    ∀ n, n ≤ w → QuantTo d (y * w) → QuantTo (fsRowN w h y n d) (y * w + n) := by
  intro n
  induction n with
  | zero =>
    intro _ hq
    simpa using hq
  | succ m ih =>
    intro hm hq
    rw [fsRowN_succ]
    have hlen2 : (fsRowN w h y m d).length = w * h := by rw [fsRowN_length, hlen]
    have hqm := ih (by omega) hq
    have := fsPixel_quant w h (fsRowN w h y m d) m y (by omega) hy hlen2 hqm
    simpa [Nat.add_assoc] using this

lemma fsScanN_quant (w h : ℕ) (d : List Rgbq) (hlen : d.length = w * h) :
    ∀ n, n ≤ h → QuantTo (fsScanN w h n d) (n * w) := by
  intro n
  induction n with
  | zero =>
    intro _ i hi
    exact absurd hi (by omega)
  | succ m ih =>
    intro hm
    rw [fsScanN_succ]
    have hlen2 : (fsScanN w h m d).length = w * h := by rw [fsScanN_length, hlen]
    have := fsRowN_quant w h m (fsScanN w h m d) (by omega) hlen2 w (le_refl w)
      (ih (by omega))
    rw [Nat.succ_mul]
    exact this

lemma fsScan_length (w h : ℕ) (d : List Rgbq) : (fsScan w h d).length = d.length :=
  fsScanN_length w h h d

lemma fsScan_quant (w h : ℕ) (d : List Rgbq) (hlen : d.length = w * h) :
    QuantTo (fsScan w h d) (h * w) :=
  fsScanN_quant w h d hlen h (le_refl h)

/-- Conversion back to 8 bits undoes the load of a palette color. -/
lemma palette_roundtrip : ∀ c ∈ PALETTE, Rgbq.toRgb8 (Rgb8.toQ c) = c := by
  intro c hc
  fin_cases hc <;> (norm_num [Rgbq.toRgb8, Rgb8.toQ, toU8, qclamp, Rat.floor]; try decide)

/-- C2: dithering preserves the dimensions and the pixel count of the raster,
and every output pixel is exactly one of the six palette colors. -/
theorem dither_range (p : Pixmap) (hlen : p.pixels.length = p.width * p.height) :
    (apply_floyd_steinberg p).width = p.width ∧
    (apply_floyd_steinberg p).height = p.height ∧
    (apply_floyd_steinberg p).pixels.length = p.pixels.length ∧
    ∀ pix ∈ (apply_floyd_steinberg p).pixels, pix ∈ PALETTE := by
  refine ⟨rfl, rfl, ?_, ?_⟩
  · simp only [apply_floyd_steinberg]
    rw [List.length_map, fsScan_length, List.length_map]
  · intro pix hpix
    simp only [apply_floyd_steinberg] at hpix
    rw [List.mem_map] at hpix
    rcases hpix with ⟨cell, hcell, hpix⟩
    rw [List.mem_iff_getElem] at hcell
    rcases hcell with ⟨i, hi, hcell⟩
    have hlen2 : (p.pixels.map Rgb8.toQ).length = p.width * p.height := by
      rw [List.length_map, hlen]
    have hq := fsScan_quant p.width p.height (p.pixels.map Rgb8.toQ) hlen2
    have hi2 : i < p.height * p.width := by
      rw [fsScan_length, hlen2, Nat.mul_comm p.width p.height] at hi
      exact hi
    rcases hq i hi2 with ⟨c, hc, he⟩
    have hcell2 : (fsScan p.width p.height (p.pixels.map Rgb8.toQ)).getD i qzero = cell := by
      rw [List.getD_eq_getElem?_getD, List.getElem?_eq_getElem hi, hcell]
      rfl
    rw [← hpix, ← hcell2, he, palette_roundtrip c hc]
    exact hc

/-- Witness for C2 on a concrete 1-by-1 near-black raster. -/
theorem dither_range_witness :
    (apply_floyd_steinberg ⟨1, 1, [⟨10, 10, 10⟩]⟩).width = 1 ∧
      (apply_floyd_steinberg ⟨1, 1, [⟨10, 10, 10⟩]⟩).pixels.length = 1 :=
  ⟨(dither_range ⟨1, 1, [⟨10, 10, 10⟩]⟩ rfl).1,
   (dither_range ⟨1, 1, [⟨10, 10, 10⟩]⟩ rfl).2.2.1⟩

/-! ### Uniform palette rasters are fixed points of dithering -/

lemma clamp3_palette : ∀ c ∈ PALETTE, clamp3 (Rgb8.toQ c) = Rgb8.toQ c := by
  intro c hc
  fin_cases hc <;> (norm_num [clamp3, qclamp, Rgb8.toQ]; try decide)

lemma getD_replicate_lt {α : Type} (a d : α) : ∀ (n j : ℕ), j < n →
    (List.replicate n a).getD j d = a := by
  intro n
  induction n with
  | zero => intro j hj; exact absurd hj (by omega)
  | succ m ih =>
    intro j hj
    cases j with
    | zero => rfl
    | succ k => exact ih k (by omega)

lemma fsNewAt_palette (d : List Rgbq) (idx : ℕ) (c : Rgb8) (hc : c ∈ PALETTE)
    (hcell : d.getD idx qzero = Rgb8.toQ c) : fsNewAt d idx = c := by
  unfold fsNewAt fsOldAt
  rw [hcell, clamp3_palette c hc]
  exact fcc_fixed c hc

lemma fsErrAt_palette (d : List Rgbq) (idx : ℕ) (c : Rgb8) (hc : c ∈ PALETTE)
    (hcell : d.getD idx qzero = Rgb8.toQ c) : fsErrAt d idx = qzero := by
  have hnew := fsNewAt_palette d idx c hc hcell
  unfold fsErrAt fsOldAt
  rw [hcell, clamp3_palette c hc, hnew]
  simp [Rgb8.toQ, qzero]

lemma addScaled_zero (p : Rgbq) (f : ℚ) : addScaled p qzero f = p := by
  simp [addScaled, qzero]

lemma de_zero (d : List Rgbq) (i : ℕ) (f : ℚ) : distribute_error d i qzero f = d := by
  unfold distribute_error
  rw [addScaled_zero]
  exact set_getD_self d i qzero

lemma fsPixel_palette (w h : ℕ) (d : List Rgbq) (x y : ℕ) (c : Rgb8) (hc : c ∈ PALETTE)
    (hcell : d.getD (y * w + x) qzero = Rgb8.toQ c) : fsPixel w h d x y = d := by
  have hnew := fsNewAt_palette d (y * w + x) c hc hcell
  have herr := fsErrAt_palette d (y * w + x) c hc hcell
  have hset : d.set (y * w + x) (Rgb8.toQ c) = d := by
    rw [← hcell]
    exact set_getD_self d _ qzero
  simp only [fsPixel, hnew, herr, hset, de_zero]
  split_ifs <;> rfl

lemma fsRowN_palette (w h y : ℕ) (d : List Rgbq) (c : Rgb8) (hc : c ∈ PALETTE)
    (hlen : d.length = w * h) (hy : y < h)
    (hall : ∀ j, j < d.length → d.getD j qzero = Rgb8.toQ c) :
    ∀ n, n ≤ w → fsRowN w h y n d = d := by
  intro n
  induction n with
  | zero => intro _; rfl
  | succ m ih =>
    intro hm
    rw [fsRowN_succ, ih (by omega)]
    exact fsPixel_palette w h d m y c hc
      (hall _ (by rw [hlen]; exact idx_lt (by omega) hy))

lemma fsScanN_palette (w h : ℕ) (d : List Rgbq) (c : Rgb8) (hc : c ∈ PALETTE)
    (hlen : d.length = w * h)
    (hall : ∀ j, j < d.length → d.getD j qzero = Rgb8.toQ c) :
    ∀ n, n ≤ h → fsScanN w h n d = d := by
  intro n
  induction n with
  | zero => intro _; rfl
  | succ m ih =>
    intro hm
    rw [fsScanN_succ, ih (by omega)]
    exact fsRowN_palette w h m d c hc hlen (by omega) hall w (le_refl w)

/-- C10: on a raster whose pixels all equal the same palette color, the scan
computes zero error at every pixel and dithering returns the input raster
unchanged. -/
theorem dither_uniform_fixed (p : Pixmap) (c : Rgb8) (hc : c ∈ PALETTE)
    (hpix : p.pixels = List.replicate (p.width * p.height) c) :
    (∀ y, y < p.height → ∀ x, x < p.width →
       fsErrAt (fsRowN p.width p.height y x
           (fsScanN p.width p.height y (p.pixels.map Rgb8.toQ))) (y * p.width + x)
         = qzero) ∧
    apply_floyd_steinberg p = p := by
  have hdata : p.pixels.map Rgb8.toQ = List.replicate (p.width * p.height) (Rgb8.toQ c) := by
    rw [hpix, List.map_replicate]
  have hlen : (p.pixels.map Rgb8.toQ).length = p.width * p.height := by
    rw [hdata, List.length_replicate]
  have hall : ∀ j, j < (p.pixels.map Rgb8.toQ).length →
      (p.pixels.map Rgb8.toQ).getD j qzero = Rgb8.toQ c := by
    intro j hj
    rw [hlen] at hj
    rw [hdata]
    exact getD_replicate_lt _ _ _ j hj
  constructor
  · intro y hy x hx
    rw [fsScanN_palette p.width p.height _ c hc hlen hall y (by omega),
      fsRowN_palette p.width p.height y _ c hc hlen hy hall x (by omega)]
    exact fsErrAt_palette _ _ c hc (hall _ (by rw [hlen]; exact idx_lt hx hy))
  · show (⟨p.width, p.height, _⟩ : Pixmap) = p
    have hscan : fsScan p.width p.height (p.pixels.map Rgb8.toQ) = p.pixels.map Rgb8.toQ :=
      fsScanN_palette p.width p.height _ c hc hlen hall p.height (le_refl p.height)
    rw [hscan, hdata, List.map_replicate, palette_roundtrip c hc, ← hpix]

/-- Witness for C10 on the 1-by-1 all-white raster. -/
theorem dither_uniform_fixed_witness :
    apply_floyd_steinberg ⟨1, 1, [⟨255, 255, 255⟩]⟩ = ⟨1, 1, [⟨255, 255, 255⟩]⟩ :=
  (dither_uniform_fixed ⟨1, 1, [⟨255, 255, 255⟩]⟩ ⟨255, 255, 255⟩ (by decide) rfl).2

/-! ### Totality of the pipeline -/

/-- C8: the three components are total on the embedding: dithering preserves
width, height and pixel count for every raster (in particular a zero-sized
raster gives a zero-sized output), the quantizer always produces a palette
color, and the transcoder always produces the fixed 960,000-byte panel buffer
in which every byte not reached from the source raster stays 0. -/
theorem pipeline_total :
    (∀ p : Pixmap, (apply_floyd_steinberg p).width = p.width ∧
       (apply_floyd_steinberg p).height = p.height ∧
       (apply_floyd_steinberg p).pixels.length = p.pixels.length) ∧
    (∀ p : Pixmap, p.pixels = [] → (apply_floyd_steinberg p).pixels = []) ∧
    (∀ q : Rgbq, find_closest_color q ∈ PALETTE) ∧
    (∀ p : Pixmap, (pixmap_to_epd_bin p).length = 960000) ∧
    ∀ (p : Pixmap) (x y : ℕ), x < TARGET_W → y < TARGET_H →
      ¬(y < p.width ∧ p.height - 1 - x < p.height) →
      (pixmap_to_epd_bin p).getD (bytePos x y) 0 = 0 := by
  have hshape : ∀ p : Pixmap, (apply_floyd_steinberg p).pixels.length = p.pixels.length := by
    intro p
    simp only [apply_floyd_steinberg]
    rw [List.length_map, fsScan_length, List.length_map]
  refine ⟨fun p => ⟨rfl, rfl, hshape p⟩, ?_, fcc_mem, pixmap_to_epd_bin_length,
    epd_oob_byte_zero⟩
  intro p hp
  have := hshape p
  rw [hp] at this
  exact List.eq_nil_of_length_eq_zero this

/-- Witness for C8: a raster with an empty pixel list dithers to an empty
pixel list, and on a 1-by-1 source the out-of-range destination (0, 1) leaves
its packed byte 0. -/
theorem pipeline_total_witness :
    (apply_floyd_steinberg ⟨0, 0, []⟩).pixels = [] ∧
      (pixmap_to_epd_bin ⟨1, 1, [⟨0, 0, 0⟩]⟩).getD (bytePos 0 1) 0 = 0 :=
  ⟨pipeline_total.2.1 ⟨0, 0, []⟩ rfl,
   pipeline_total.2.2.2.2 ⟨1, 1, [⟨0, 0, 0⟩]⟩ 0 1 (by decide) (by decide) (by decide)⟩

end Radar
